import Mathlib

set_option maxRecDepth 8192

/-!
Shallow embedding of the boozer-analysis recap engine (recap.py / analysis.py /
classify.py) and proofs about it.

Conventions of the embedding:
* Timestamps are epoch seconds (`Nat`), matching the source's ingestion
  (`pd.to_datetime(..., unit="s")`, naive UTC).  All data in this system is
  post-1970, so `Nat` suffices.
* Day numbers are days since 1970-01-01 (a Thursday).
* `pd.Grouper(key="time", freq="W-MON")` uses pandas' defaults for weekly
  frequencies, `closed='right', label='right'`, and pandas additionally
  adjusts the right-closed bin edges of daily-or-coarser frequencies to
  end-of-day (`label + 1 day - 1 ns`), so each bin covers the full calendar
  days Tuesday through Monday and is labelled by its ending Monday.  Hence a
  timestamp is binned to the first Monday whose day number is at-or-after its
  own calendar day: all of Monday stays in that Monday's own label.
* `Series.value_counts()` is modelled as: distinct keys in order of first
  appearance, each paired with its multiplicity, sorted by count descending
  with a stable sort (ties keep first-appearance order).
* Python dicts are modelled as association lists where a later binding for the
  same key shadows an earlier one (`dictLookup` scans with last-wins folds).
* The external classification call is an explicit oracle parameter
  `String → Except String String` (item name ↦ category string or failure).
-/

/-! ## Data model -/

/-- A row of the `items` table (before the catalog merge). -/
structure Item where
  item_id : Nat
  name : String
deriving DecidableEq, Repr

/-- An item after the catalog merge: `category` is an optional string because a
classification cache entry can carry a null category (pandas `NaN`/`None`). -/
structure ClassifiedItem where
  item_id : Nat
  name : String
  category : Option String
deriving DecidableEq, Repr

/-- A row of the `consumptions` table; `time` is epoch seconds. -/
structure Consumption where
  user_id : Nat
  item_id : Nat
  time : Nat
deriving DecidableEq, Repr

/-- An entry of the classification cache file `items_classified.json`; both the
current field `category` and the legacy field `classification` may be absent. -/
structure CacheEntry where
  item_id : Nat
  name : String
  category : Option String
  classification : Option String
deriving DecidableEq, Repr

/-! ## Calendar arithmetic -/

/-- Day-of-week of an epoch day number, with 0 = Monday (1970-01-01 = day 0 is
a Thursday, value 3). -/
def dayOfWeek (d : Nat) : Nat := (d + 3) % 7

/-- The first day at-or-after `d` that is a Monday. -/
def nextMondayOnOrAfter (d : Nat) : Nat := d + (7 - dayOfWeek d) % 7

/-- The label of the weekly `W-MON` bin containing epoch second `t`: the
first Monday at-or-after `t`'s own calendar day.  pandas shifts the
right-closed weekly bin edges to end-of-day, so the bin labelled Monday `m`
covers the whole days `m - 6` (Tuesday) through `m` (Monday); a timestamp
anywhere during a Monday keeps that Monday's label. -/
def weekLabel (t : Nat) : Nat := nextMondayOnOrAfter (t / 86400)

/-- Gregorian `(year, month, day)` from an epoch day number (days since
1970-01-01); standard civil-from-days algorithm, valid for days ≥ 0. -/
def civilFromDays (z : Nat) : Nat × Nat × Nat :=
  let z' := z + 719468
  let era := z' / 146097
  let doe := z' % 146097
  let yoe := (doe - doe / 1460 + doe / 36524 - doe / 146096) / 365
  let y := yoe + era * 400
  let doy := doe - (365 * yoe + yoe / 4 - yoe / 100)
  let mp := (5 * doy + 2) / 153
  let d := doy - (153 * mp + 2) / 5 + 1
  let m := if mp < 10 then mp + 3 else mp - 9
  (if m ≤ 2 then y + 1 else y, m, d)

/-- Left-pad the decimal representation of `n` with zeros to width 2. -/
def pad2 (n : Nat) : String := if n < 10 then "0" ++ toString n else toString n

/-- Serialize an epoch day number as `YYYY-MM-DD` (`strftime("%Y-%m-%d")`).
Years in this data set have four digits, so no year padding is needed. -/
def formatDate (d : Nat) : String :=
  let c := civilFromDays d
  toString c.1 ++ "-" ++ pad2 c.2.1 ++ "-" ++ pad2 c.2.2

/-- Weekday names in the fixed insertion order used by the source's counts
dict, Monday first; index `i` is the name of `dayOfWeek` value `i`. -/
def dayNames : List String :=
  ["Monday", "Tuesday", "Wednesday", "Thursday", "Friday", "Saturday", "Sunday"]

/-- `pandas.Timestamp.day_name()` for an epoch-seconds timestamp. -/
def day_name (t : Nat) : String := dayNames.getD (dayOfWeek (t / 86400)) ""

/-! ## value_counts -/

/-- Distinct elements of a list in order of first appearance, skipping an
accumulator of already-seen elements (model of the key order produced by
pandas' hash-table counting). -/
def firstSeenAux {α : Type} [DecidableEq α] (seen : List α) : List α → List α
  | [] => []
  | x :: xs =>
      if x ∈ seen then firstSeenAux seen xs
      else x :: firstSeenAux (x :: seen) xs

/-- Distinct elements of a list in order of first appearance. -/
def firstSeen {α : Type} [DecidableEq α] (l : List α) : List α := firstSeenAux [] l

/-- Insert a `(key, count)` pair into a list sorted by count descending,
placing it before the first element of smaller-or-equal count (so an existing
tie keeps its position: stable). -/
def insertDesc {α : Type} (x : α × Nat) : List (α × Nat) → List (α × Nat)
  | [] => [x]
  | y :: ys => if y.2 ≤ x.2 then x :: y :: ys else y :: insertDesc x ys

/-- Stable insertion sort by count descending. -/
def sortDesc {α : Type} (l : List (α × Nat)) : List (α × Nat) :=
  l.foldr insertDesc []

/-- Model of `Series.value_counts()`: each distinct value with its
multiplicity, sorted by count descending, ties in first-appearance order. -/
def value_counts {α : Type} [DecidableEq α] (l : List α) : List (α × Nat) :=
  sortDesc ((firstSeen l).map (fun k => (k, l.countP (fun x => x = k))))

/-! ## Aggregator (analysis.py / recap.py) -/

/-- The rows of the consumption log in scope: one user's rows, or all rows
when no user filter is given. -/
def scopeOf (consumptions : List Consumption) (user_id : Option Nat) :
    List Consumption :=
  match user_id with
  | some uid => consumptions.filter (fun c => c.user_id = uid)
  | none => consumptions

/-- `get_user_consumption_count`: number of consumption rows of a user. -/
def get_user_consumption_count (user_id : Nat)
    (consumptions : List Consumption) : Nat :=
  (consumptions.filter (fun c => c.user_id = user_id)).length

/-- `get_user_variety`: number of distinct `item_id` values a user consumed. -/
def get_user_variety (user_id : Nat) (consumptions : List Consumption) : Nat :=
  (firstSeen ((consumptions.filter (fun c => c.user_id = user_id)).map
    (fun c => c.item_id))).length

/-- The `id_to_name` mapping of `get_top_items` (recap.py): a dict built from
the item rows, later rows shadowing earlier ones, with default `"Unknown"`. -/
def id_to_name (items : List ClassifiedItem) (id : Nat) : String :=
  (items.foldl (fun acc it => if it.item_id = id then some it.name else acc)
    none).getD "Unknown"

/-- `get_top_items` (recap.py): frequency table of `item_id` in scope, top
`top_n` rows, names resolved via the catalog. -/
def get_top_items (consumptions : List Consumption)
    (items : List ClassifiedItem) (top_n : Nat) (user_id : Option Nat) :
    List (String × Nat) :=
  let cs := scopeOf consumptions user_id
  ((value_counts (cs.map (fun c => c.item_id))).take top_n).map
    (fun p => (id_to_name items p.1, p.2))

/-- The category of a consumption row after the left merge with
`items[["item_id", "category"]]`: the matching item's category, or `none`
(pandas `NaN`) when no item row matches.  Later duplicate item rows shadow
earlier ones, as in a pandas merge followed by dict-style lookup. -/
def categoryOf (items : List ClassifiedItem) (c : Consumption) :
    Option String :=
  (items.foldl
    (fun acc it => if it.item_id = c.item_id then some it.category else acc)
    none).bind id

/-- `get_user_top_categories`: left-merge the user's consumptions with the
catalog's category column, `value_counts` of the category column (which drops
`NaN`, i.e. rows whose item is absent or has a null category), top `top_n`. -/
def get_user_top_categories (user_id : Nat) (consumptions : List Consumption)
    (items : List ClassifiedItem) (top_n : Nat) : List (String × Nat) :=
  let user_c := consumptions.filter (fun c => c.user_id = user_id)
  let cats := user_c.filterMap (categoryOf items)
  (value_counts cats).take top_n

/-- `get_day_distribution`: the fixed seven-key counts dict, one increment per
timestamp on the key of its weekday.  A key absent from the dict would raise in
the source; `bumpDay` maps over the association list instead, which agrees
because `day_name` always returns one of the seven keys. -/
def bumpDay (counts : List (String × Nat)) (d : String) :
    List (String × Nat) :=
  counts.map (fun p => if p.1 = d then (p.1, p.2 + 1) else p)

/-- `get_day_distribution` over epoch-second timestamps. -/
def get_day_distribution (timestamps : List Nat) : List (String × Nat) :=
  timestamps.foldl (fun counts t => bumpDay counts (day_name t))
    (dayNames.map (fun d => (d, 0)))

/-- `get_percentile`: share of population values ≤ `value`, as a percentage,
subtracted from 100; an empty population yields 0. -/
def get_percentile (value : Int) (all_values : List Int) : ℚ :=
  let n_total := all_values.length
  if n_total = 0 then 0
  else
    let n_le := (all_values.filter (fun v => v ≤ value)).length
    let percentile_rank : ℚ := ((n_le : ℚ) / (n_total : ℚ)) * 100
    100 - min percentile_rank 100

/-- The formula claimed by the specification for `get_percentile`, written
independently from the spec's words (for the refinement statement of C1). -/
def percentile_spec (value : Int) (all_values : List Int) : ℚ :=
  if all_values.length = 0 then 0
  else
    100 -
      min (((all_values.countP (fun p => p ≤ value) : ℚ) /
        (all_values.length : ℚ)) * 100) 100

/-! ## Weekly binner -/

/-- `get_weekly_consumptions` (recap.py), day-level form: filter to the scope,
label every timestamp with its weekly bin's right-edge Monday, and reindex
over every such Monday from the earliest to the latest label, filling absent
weeks with 0.  Returns `(Monday day number, count)` pairs. -/
def get_weekly_consumptions (consumptions : List Consumption)
    (user_id : Option Nat) : List (Nat × Nat) :=
  let user_c := scopeOf consumptions user_id
  let labels := user_c.map (fun c => weekLabel c.time)
  match labels.min?, labels.max? with
  | some lo, some hi =>
      (List.range ((hi - lo) / 7 + 1)).map
        (fun i => (lo + 7 * i, labels.countP (fun x => x = lo + 7 * i)))
  | _, _ => []

/-- `get_weekly_consumptions(..., as_dicts=True)`: the same buckets with the
week label serialized as `YYYY-MM-DD`. -/
def get_weekly_consumptions_dicts (consumptions : List Consumption)
    (user_id : Option Nat) : List (String × Nat) :=
  (get_weekly_consumptions consumptions user_id).map
    (fun p => (formatDate p.1, p.2))

/-! ## Catalog merger / classification (recap.py `classify_items`, classify.py) -/

/-- Lookup in a Python dict built from a list of entries keyed by `item_id`:
a later entry for the same key shadows an earlier one. -/
def dictLookup (cache : List CacheEntry) (id : Nat) : Option CacheEntry :=
  cache.foldl (fun acc e => if e.item_id = id then some e else acc) none

/-- Python's `a or b` on optional strings: `None` and the empty string are
falsy and fall through to `b`. -/
def pyOr (a b : Option String) : Option String :=
  match a with
  | some s => if s = "" then b else some s
  | none => b

/-- The category a cache entry yields:
`item.get('category') or item.get('classification')`. -/
def entryCategory (e : CacheEntry) : Option String :=
  pyOr e.category e.classification

/-- `classify_items` when `GEMINI_API_KEY` is unset: cached entries are used
verbatim, anything else becomes the sentinel `"uncategorised"`; no external
call is made and the cache file is not rewritten. -/
def classify_items_noapi (items : List Item) (cache_list : List CacheEntry) :
    List ClassifiedItem :=
  items.map (fun it =>
    match dictLookup cache_list it.item_id with
    | some e => ⟨it.item_id, it.name, entryCategory e⟩
    | none => ⟨it.item_id, it.name, some "uncategorised"⟩)

/-- State threaded through the `classify_items` loop (API-key branch):
the evolving cache dict (as an ordered entry list), whether any new entry was
added, the number of external calls made so far, and the classified rows. -/
structure ClassifyState where
  cache : List CacheEntry
  newly : Bool
  calls : Nat
  out : List ClassifiedItem
deriving Repr

/-- One iteration of the `classify_items` loop: a cached item is answered from
the cache; otherwise the external call is made exactly once — a failure yields
the category `"error"` — and the result is added to the cache dict. -/
def classify_step (oracle : String → Except String String)
    (s : ClassifyState) (it : Item) : ClassifyState :=
  match dictLookup s.cache it.item_id with
  | some e =>
      ⟨s.cache, s.newly, s.calls,
        s.out ++ [⟨it.item_id, it.name, entryCategory e⟩]⟩
  | none =>
      let c := match oracle it.name with
        | .ok c => c
        | .error _ => "error"
      ⟨s.cache ++ [⟨it.item_id, it.name, some c, none⟩], true, s.calls + 1,
        s.out ++ [⟨it.item_id, it.name, some c⟩]⟩

/-- `classify_items` with an API key: fold the loop over the item rows.  The
cache file is rewritten (with `ClassifyState.cache`) iff `newly` is true. -/
def classify_items (oracle : String → Except String String)
    (items : List Item) (cache_list : List CacheEntry) : ClassifyState :=
  items.foldl (classify_step oracle) ⟨cache_list, false, 0, []⟩

/-- The standalone classification loop of classify.py: on the first failed or
malformed response it calls `sys.exit(1)`, aborting the run before any output
is written (modelled by `Except.error`). -/
def classify_py (oracle : String → Except String String) :
    List Item → Except String (List ClassifiedItem)
  | [] => .ok []
  | it :: rest =>
      match oracle it.name with
      | .ok c => (classify_py oracle rest).map
          (fun l => ⟨it.item_id, it.name, some c⟩ :: l)
      | .error e => .error e

/-! ## Recap assembler and the two mains' first passes -/

/-- A per-user recap document (the fields assembled by `gen_user_recap`,
with `percentile` added only in the second pass). -/
structure Recap where
  user_id : Nat
  consumption_count : Nat
  variety : Nat
  weekly_counts : List (String × Nat)
  top_items : List (String × Nat)
  categories : List (String × Nat)
  days : List (String × Nat)
deriving DecidableEq, Repr

/-- `gen_user_recap` (recap.py): `none` for a user with no consumptions,
otherwise the assembled recap. -/
def gen_user_recap (user_id : Nat) (consumptions : List Consumption)
    (items : List ClassifiedItem) : Option Recap :=
  let cnt := get_user_consumption_count user_id consumptions
  if cnt = 0 then none
  else some
    ⟨user_id, cnt, get_user_variety user_id consumptions,
      get_weekly_consumptions_dicts consumptions (some user_id),
      get_top_items consumptions items 5 (some user_id),
      get_user_top_categories user_id consumptions items 1000,
      get_day_distribution
        ((consumptions.filter (fun c => c.user_id = user_id)).map
          (fun c => c.time))⟩

/-- The first pass of recap.py's `main`: every user id in order, keeping the
recaps `gen_user_recap` produced. -/
def first_pass_recap (users : List Nat) (consumptions : List Consumption)
    (items : List ClassifiedItem) : List Recap :=
  users.filterMap (fun uid => gen_user_recap uid consumptions items)

/-- The percentile population collected by recap.py's first pass. -/
def consumption_counts_recap (users : List Nat)
    (consumptions : List Consumption) (items : List ClassifiedItem) :
    List Nat :=
  (first_pass_recap users consumptions items).map
    (fun r => r.consumption_count)

/-- The first pass of analysis.py's `main`, which additionally skips
`user_id == 1` unconditionally (marked `# TODO: remove this` in the source). -/
def first_pass_analysis (users : List Nat) (consumptions : List Consumption)
    (items : List ClassifiedItem) : List Recap :=
  users.filterMap (fun uid =>
    if uid = 1 then none else gen_user_recap uid consumptions items)

/-! ## Concrete inputs for the category-truncation analysis -/

/-- A catalog of 1001 items with pairwise distinct categories (item `i` has
category `"aa...a"` with `i` copies of `a`). -/
def c6_items : List ClassifiedItem :=
  (List.range 1001).map
    (fun i => ⟨i, "x", some (String.mk (List.replicate i 'a'))⟩)

/-- A log in which user 7 consumes each of the 1001 items once. -/
def c6_cs : List Consumption :=
  (List.range 1001).map (fun i => ⟨7, i, 0⟩)

/-! ## Helper lemmas -/

theorem countP_eq_one_of_nodup_mem {α : Type} [DecidableEq α] {keys : List α}
    {x : α} (h : keys.Nodup) (hm : x ∈ keys) :
    keys.countP (fun k => x = k) = 1 := by
  induction keys with
  | nil => simp at hm
  | cons k ks ih =>
    rw [List.countP_cons]
    rcases List.nodup_cons.mp h with ⟨hk, hks⟩
    by_cases hx : x = k
    · subst hx
      have h0 : ks.countP (fun k => x = k) = 0 := by
        rw [List.countP_eq_zero]
        intro a ha
        simp only [decide_eq_true_eq]
        intro hxa
        exact hk (hxa ▸ ha)
      simp [h0]
    · have hmem : x ∈ ks := by
        rcases List.mem_cons.mp hm with h' | h'
        · exact absurd h' hx
        · exact h'
      simp [ih hks hmem, hx]

theorem sum_map_ite_eq_countP {α : Type} [DecidableEq α] (a : α)
    (keys : List α) :
    (keys.map (fun k => if a = k then 1 else 0)).sum
      = keys.countP (fun k => a = k) := by
  induction keys with
  | nil => simp
  | cons k ks ih =>
    rw [List.map_cons, List.sum_cons, List.countP_cons, ih]
    by_cases h : a = k
    · simp [h]
      omega
    · simp [h]

theorem sum_countP_eq_length {α β : Type} [DecidableEq α] (f : β → α) :
    ∀ (l : List β) (keys : List α), keys.Nodup → (∀ x ∈ l, f x ∈ keys) →
      (keys.map (fun k => l.countP (fun x => f x = k))).sum = l.length := by
  intro l
  induction l with
  | nil => intro keys _ _; simp
  | cons x l ih =>
    intro keys hnd hall
    have hstep : (keys.map (fun k => (x :: l).countP (fun y => f y = k)))
        = keys.map (fun k =>
            l.countP (fun y => f y = k) + if f x = k then 1 else 0) := by
      apply List.map_congr_left
      intro k _
      rw [List.countP_cons]
      by_cases h : f x = k <;> simp [h]
    rw [hstep, List.sum_map_add, sum_map_ite_eq_countP,
      countP_eq_one_of_nodup_mem hnd (hall x (List.mem_cons_self x l)),
      ih keys hnd (fun y hy => hall y (List.mem_cons_of_mem x hy))]
    simp [List.length_cons]

theorem dayNames_length : dayNames.length = 7 := by decide

theorem dayOfWeek_lt (d : Nat) : dayOfWeek d < 7 := by
  unfold dayOfWeek
  omega

theorem day_name_mem (t : Nat) : day_name t ∈ dayNames := by
  unfold day_name
  have h : dayOfWeek (t / 86400) < dayNames.length := by
    rw [dayNames_length]; exact dayOfWeek_lt _
  rw [List.getD_eq_getElem _ _ h]
  exact List.getElem_mem h

theorem dayNames_nodup : dayNames.Nodup := by decide

theorem foldl_bumpDay (ts : List Nat) :
    ∀ acc : List (String × Nat),
      ts.foldl (fun counts t => bumpDay counts (day_name t)) acc
        = acc.map (fun p =>
            (p.1, p.2 + ts.countP (fun t => day_name t = p.1))) := by
  induction ts with
  | nil =>
    intro acc
    simp
  | cons t ts ih =>
    intro acc
    rw [List.foldl_cons, ih, bumpDay, List.map_map]
    apply List.map_congr_left
    intro p _
    simp only [Function.comp_apply]
    by_cases h : p.1 = day_name t
    · rw [if_pos h, List.countP_cons]
      have : (day_name t = p.1) = True := by simp [h.symm]
      simp [this]
      omega
    · rw [if_neg h, List.countP_cons]
      have : ¬(day_name t = p.1) := fun hc => h hc.symm
      simp [this]

theorem get_day_distribution_eq (ts : List Nat) :
    get_day_distribution ts
      = dayNames.map (fun d => (d, ts.countP (fun t => day_name t = d))) := by
  rw [get_day_distribution, foldl_bumpDay, List.map_map]
  apply List.map_congr_left
  intro d _
  simp

/-! ## Claim C9 -/

/-- Claim C9: `get_day_distribution` returns a mapping with exactly the seven
keys Monday through Sunday in that order (all present even when 0), each
timestamp increments the key of its weekday exactly once, and the seven values
sum to the number of timestamps. -/
theorem c9_day_distribution (ts : List Nat) :
    (get_day_distribution ts).map Prod.fst = dayNames
    ∧ get_day_distribution ts
        = dayNames.map (fun d => (d, ts.countP (fun t => day_name t = d)))
    ∧ ((get_day_distribution ts).map Prod.snd).sum = ts.length := by
  refine ⟨?_, get_day_distribution_eq ts, ?_⟩
  · rw [get_day_distribution_eq, List.map_map]
    simp [Function.comp_def]
  · rw [get_day_distribution_eq, List.map_map]
    have h := sum_countP_eq_length day_name ts dayNames dayNames_nodup
      (fun t _ => day_name_mem t)
    simpa using h

/-! ## Claims C1 and C10 -/

/-- Claim C1: `get_percentile(v, V)` equals
`100 - min((n_le / N) * 100, 100)` with `n_le` the number of population values
`≤ v`, `N = 0` yielding exactly 0; and on `V = [1, 2, 2, 5]` the results for
`v = 5, 1, 2` are `0, 75, 25`. -/
theorem c1_percentile_formula :
    (∀ (v : Int) (V : List Int), get_percentile v V = percentile_spec v V)
    ∧ get_percentile 5 [1, 2, 2, 5] = 0
    ∧ get_percentile 1 [1, 2, 2, 5] = 75
    ∧ get_percentile 2 [1, 2, 2, 5] = 25 := by
  refine ⟨fun v V => ?_, ?_, ?_, ?_⟩
  · simp only [get_percentile, percentile_spec, List.countP_eq_length_filter]
  · norm_num [get_percentile, List.filter]
  · norm_num [get_percentile, List.filter]
  · norm_num [get_percentile, List.filter]

/-- Claim C10: `get_percentile` always lands in the closed interval
`[0, 100]`, for every value and every population (including the empty one). -/
theorem c10_percentile_bounds (v : Int) (V : List Int) :
    0 ≤ get_percentile v V ∧ get_percentile v V ≤ 100 := by
  unfold get_percentile
  by_cases h : V.length = 0
  · simp [h]
  · rw [if_neg h]
    have h0 : (0 : ℚ) ≤
        ((V.filter (fun x => x ≤ v)).length : ℚ) / (V.length : ℚ) * 100 := by
      positivity
    constructor
    · have hm : min (((V.filter (fun x => x ≤ v)).length : ℚ) /
          (V.length : ℚ) * 100) 100 ≤ 100 := min_le_right _ _
      linarith
    · have hm : (0 : ℚ) ≤ min (((V.filter (fun x => x ≤ v)).length : ℚ) /
          (V.length : ℚ) * 100) 100 := le_min h0 (by norm_num)
      linarith

/-! ## Claim C2 -/

/-- Claim C2 counterexample: for consumptions on 2024-01-03 and 2024-01-17
(epoch seconds 1704240000 and 1705449600) the weekly binner emits
`[2024-01-08:1, 2024-01-15:0, 2024-01-22:1]` — each timestamp lands in the
`W-MON` bin labelled by its right-edge Monday — and not the claimed
`[2024-01-01:1, 2024-01-08:0, 2024-01-15:1]`. -/
theorem c2_counterexample :
    get_weekly_consumptions_dicts
        [⟨7, 1, 1704240000⟩, ⟨7, 2, 1705449600⟩] (some 7)
      = [("2024-01-08", 1), ("2024-01-15", 0), ("2024-01-22", 1)]
    ∧ get_weekly_consumptions_dicts
        [⟨7, 1, 1704240000⟩, ⟨7, 2, 1705449600⟩] (some 7)
      ≠ [("2024-01-01", 1), ("2024-01-08", 0), ("2024-01-15", 1)] := by
  constructor
  · decide
  · decide

/-- Claim C2 (amended): the weekly binner assigns every consumption timestamp
to the first Monday at-or-after its own calendar day — its `W-MON` bin covers
the full days Tuesday through Monday and is labelled by that ending Monday —
not to the start of its own calendar week; for the user consuming on
2024-01-03 and 2024-01-17 the serialized bucket sequence is
`[(2024-01-08, 1), (2024-01-15, 0), (2024-01-22, 1)]`. -/
theorem c2_amended :
    (∀ t : Nat, dayOfWeek (weekLabel t) = 0 ∧ t / 86400 ≤ weekLabel t
      ∧ weekLabel t < t / 86400 + 7)
    ∧ get_weekly_consumptions_dicts
        [⟨7, 1, 1704240000⟩, ⟨7, 2, 1705449600⟩] (some 7)
      = [("2024-01-08", 1), ("2024-01-15", 0), ("2024-01-22", 1)] := by
  constructor
  · intro t
    unfold weekLabel nextMondayOnOrAfter dayOfWeek
    omega
  · decide

/-! ## Claim C3 -/

theorem first_pass_recap_spec (cs : List Consumption)
    (items : List ClassifiedItem) :
    ∀ users : List Nat,
      (first_pass_recap users cs items).map (fun r => r.user_id)
        = users.filter (fun u => decide (0 < get_user_consumption_count u cs))
      ∧ (first_pass_recap users cs items).map (fun r => r.consumption_count)
        = (users.filter
            (fun u => decide (0 < get_user_consumption_count u cs))).map
              (fun u => get_user_consumption_count u cs) := by
  intro users
  induction users with
  | nil => simp [first_pass_recap]
  | cons u us ih =>
    simp only [first_pass_recap] at ih ⊢
    rw [List.filterMap_cons, List.filter_cons]
    by_cases h : get_user_consumption_count u cs = 0
    · rw [show gen_user_recap u cs items = none from by
        simp [gen_user_recap, h]]
      simp [h, ih.1, ih.2]
    · have hpos : (0 : Nat) < get_user_consumption_count u cs :=
        Nat.pos_of_ne_zero h
      rw [show gen_user_recap u cs items
          = some ⟨u, get_user_consumption_count u cs, get_user_variety u cs,
              get_weekly_consumptions_dicts cs (some u),
              get_top_items cs items 5 (some u),
              get_user_top_categories u cs items 1000,
              get_day_distribution ((cs.filter
                (fun c => c.user_id = u)).map (fun c => c.time))⟩ from by
        simp [gen_user_recap, h]]
      simp [hpos, ih.1, ih.2]

/-- Claim C3: in recap.py's main, a user contributes a recap entry (and their
count to the percentile population) iff their consumption count is positive;
but analysis.py's main also skips `user_id == 1` unconditionally (a
`TODO`-marked hack), so there the active user 1 gets no recap: with users
`[1, 2]` each having one consumption, only user 2 appears. -/
theorem c3_active_user_skipped :
    (∀ (users : List Nat) (cs : List Consumption)
        (items : List ClassifiedItem),
      (first_pass_recap users cs items).map (fun r => r.user_id)
        = users.filter (fun u => decide (0 < get_user_consumption_count u cs))
      ∧ consumption_counts_recap users cs items
        = (users.filter
            (fun u => decide (0 < get_user_consumption_count u cs))).map
              (fun u => get_user_consumption_count u cs))
    ∧ (first_pass_analysis [1, 2] [⟨1, 1, 0⟩, ⟨2, 1, 0⟩] []).map
        (fun r => r.user_id) = [2]
    ∧ 0 < get_user_consumption_count 1 [⟨1, 1, 0⟩, ⟨2, 1, 0⟩] := by
  refine ⟨fun users cs items => ?_, ?_, ?_⟩
  · exact ⟨(first_pass_recap_spec cs items users).1,
      (first_pass_recap_spec cs items users).2⟩
  · decide
  · decide

/-! ## Claims C7 and C8 -/

theorem classify_fold_out_length
    (oracle : String → Except String String) :
    ∀ (items : List Item) (s : ClassifyState),
      (items.foldl (classify_step oracle) s).out.length
        = s.out.length + items.length := by
  intro items
  induction items with
  | nil => intro s; simp
  | cons it rest ih =>
    intro s
    rw [List.foldl_cons, ih]
    cases hl : dictLookup s.cache it.item_id with
    | some e => simp [classify_step, hl]; omega
    | none => simp [classify_step, hl]; omega

theorem dictLookup_append (l : List CacheEntry) (e : CacheEntry) (id : Nat) :
    dictLookup (l ++ [e]) id
      = if e.item_id = id then some e else dictLookup l id := by
  unfold dictLookup
  rw [List.foldl_append]
  rfl

theorem classify_step_cached (oracle : String → Except String String)
    (s : ClassifyState) (it : Item) (e : CacheEntry)
    (he : dictLookup s.cache it.item_id = some e) :
    classify_step oracle s it
      = ⟨s.cache, s.newly, s.calls,
          s.out ++ [⟨it.item_id, it.name, entryCategory e⟩]⟩ := by
  simp [classify_step, he]

theorem classify_step_cache (oracle : String → Except String String)
    (s : ClassifyState) (it : Item) :
    (classify_step oracle s it).cache = s.cache
    ∨ ∃ c : String,
        (classify_step oracle s it).cache
          = s.cache ++ [⟨it.item_id, it.name, some c, none⟩]
        ∧ dictLookup s.cache it.item_id = none := by
  unfold classify_step
  cases hl : dictLookup s.cache it.item_id with
  | some e => exact Or.inl rfl
  | none => exact Or.inr ⟨_, rfl, rfl⟩

theorem classify_fold_cache_extends
    (oracle : String → Except String String) :
    ∀ (items : List Item) (s : ClassifyState),
      ∃ tail, (items.foldl (classify_step oracle) s).cache
        = s.cache ++ tail := by
  intro items
  induction items with
  | nil => intro s; exact ⟨[], by simp⟩
  | cons it rest ih =>
    intro s
    rw [List.foldl_cons]
    obtain ⟨tail, htail⟩ := ih (classify_step oracle s it)
    rcases classify_step_cache oracle s it with h | ⟨c, h, _⟩
    · rw [h] at htail
      exact ⟨tail, htail⟩
    · rw [h] at htail
      refine ⟨⟨it.item_id, it.name, some c, none⟩ :: tail, ?_⟩
      rw [htail, List.append_assoc]
      rfl

theorem classify_fold_lookup_preserved
    (oracle : String → Except String String) :
    ∀ (items : List Item) (s : ClassifyState) (id : Nat),
      (dictLookup s.cache id).isSome →
        dictLookup (items.foldl (classify_step oracle) s).cache id
          = dictLookup s.cache id := by
  intro items
  induction items with
  | nil => intro s id _; rfl
  | cons it rest ih =>
    intro s id h
    rw [List.foldl_cons]
    rcases classify_step_cache oracle s it with hc | ⟨c, hc, hl⟩
    · have h2 : (dictLookup (classify_step oracle s it).cache id).isSome := by
        rw [hc]; exact h
      rw [ih _ id h2, hc]
    · have hne : it.item_id ≠ id := by
        intro heq
        rw [heq] at hl
        rw [hl] at h
        simp at h
      have hlook : dictLookup (classify_step oracle s it).cache id
          = dictLookup s.cache id := by
        rw [hc, dictLookup_append]
        simp [hne]
      have h2 : (dictLookup (classify_step oracle s it).cache id).isSome := by
        rw [hlook]; exact h
      rw [ih _ id h2, hlook]

theorem classify_fold_all_cached
    (oracle : String → Except String String) :
    ∀ (items : List Item) (s : ClassifyState),
      (∀ it ∈ items, (dictLookup s.cache it.item_id).isSome) →
        items.foldl (classify_step oracle) s
          = ⟨s.cache, s.newly, s.calls,
              s.out ++ items.map (fun it =>
                ⟨it.item_id, it.name,
                  (dictLookup s.cache it.item_id).bind entryCategory⟩)⟩ := by
  intro items
  induction items with
  | nil => intro s _; simp
  | cons it rest ih =>
    intro s h
    obtain ⟨e, he⟩ := Option.isSome_iff_exists.mp
      (h it (List.mem_cons_self it rest))
    rw [List.foldl_cons, classify_step_cached oracle s it e he]
    have hrest := ih ⟨s.cache, s.newly, s.calls,
        s.out ++ [⟨it.item_id, it.name, entryCategory e⟩]⟩
      (fun x hx => h x (List.mem_cons_of_mem it hx))
    rw [hrest]
    simp [he, List.append_assoc]

/-- Claim C7 counterexample: with an empty cache and a failing external call,
`classify_items` assigns the category `"error"`, not the sentinel
`"uncategorised"`, to the item. -/
theorem c7_counterexample :
    (classify_items (fun _ => Except.error "boom") [⟨1, "X"⟩] []).out
      = [⟨1, "X", some "error"⟩]
    ∧ (some "error" : Option String) ≠ some "uncategorised" := by
  constructor
  · decide
  · decide

/-- Claim C7 (amended): in recap.py's `classify_items` a failed external call
— tried exactly once, there is no retry loop — assigns the category `"error"`
(not `"uncategorised"`) and processing continues with the next item, so every
item still yields an output row; the standalone classify.py loop instead
aborts the whole run on the first failure. -/
theorem c7_amended :
    (∀ (oracle : String → Except String String) (items : List Item)
        (cache : List CacheEntry),
      (classify_items oracle items cache).out.length = items.length)
    ∧ (∀ (oracle : String → Except String String) (s : ClassifyState)
        (it : Item) (e : String),
      dictLookup s.cache it.item_id = none →
        oracle it.name = Except.error e →
          (classify_step oracle s it).out
              = s.out ++ [⟨it.item_id, it.name, some "error"⟩]
            ∧ (classify_step oracle s it).calls = s.calls + 1)
    ∧ classify_py (fun _ => Except.error "boom") [⟨1, "X"⟩]
        = Except.error "boom" := by
  refine ⟨fun oracle items cache => ?_, fun oracle s it e h1 h2 => ?_, ?_⟩
  · have h := classify_fold_out_length oracle items
      ⟨cache, false, 0, []⟩
    simpa [classify_items] using h
  · constructor
    · simp [classify_step, h1, h2]
    · simp [classify_step, h1]
  · rfl

/-- Claim C7 witness for the amended theorem: a concrete uncached item whose
call fails is appended with category `"error"` and costs one call. -/
theorem c7_amended_witness :
    dictLookup ([] : List CacheEntry) 1 = none
    ∧ (fun _ : String => (Except.error "boom" : Except String String)) "X"
        = Except.error "boom"
    ∧ (classify_step (fun _ => (Except.error "boom" : Except String String))
        ⟨[], false, 0, []⟩ ⟨1, "X"⟩).out = [⟨1, "X", some "error"⟩]
    ∧ (classify_step (fun _ => (Except.error "boom" : Except String String))
        ⟨[], false, 0, []⟩ ⟨1, "X"⟩).calls = 1 := by
  refine ⟨rfl, rfl, ?_, ?_⟩
  · have h := (c7_amended.2.1
      (fun _ => (Except.error "boom" : Except String String))
      ⟨[], false, 0, []⟩ ⟨1, "X"⟩ "boom" rfl rfl).1
    simpa using h
  · exact (c7_amended.2.1
      (fun _ => (Except.error "boom" : Except String String))
      ⟨[], false, 0, []⟩ ⟨1, "X"⟩ "boom" rfl rfl).2

/-- Claim C8: over a fully cached item set, `classify_items` makes zero
external calls, returns every cached category verbatim (hence the output is
independent of the oracle, i.e. identical to the prior run), does not rewrite
the cache; and in every run the written-back cache extends the loaded one —
previously cached entries are never re-derived, lost, or shadowed. -/
theorem c8_cache :
    (∀ (oracle oracle' : String → Except String String) (items : List Item)
        (cache : List CacheEntry),
      (∀ it ∈ items, (dictLookup cache it.item_id).isSome) →
        (classify_items oracle items cache).calls = 0
        ∧ (classify_items oracle items cache).newly = false
        ∧ (classify_items oracle items cache).cache = cache
        ∧ (classify_items oracle items cache).out
            = items.map (fun it =>
                ⟨it.item_id, it.name,
                  (dictLookup cache it.item_id).bind entryCategory⟩)
        ∧ (classify_items oracle items cache).out
            = (classify_items oracle' items cache).out)
    ∧ (∀ (oracle : String → Except String String) (items : List Item)
        (cache : List CacheEntry),
      (∃ tail, (classify_items oracle items cache).cache = cache ++ tail)
      ∧ (∀ id : Nat, (dictLookup cache id).isSome →
          dictLookup (classify_items oracle items cache).cache id
            = dictLookup cache id)) := by
  constructor
  · intro oracle oracle' items cache h
    have h1 := classify_fold_all_cached oracle items ⟨cache, false, 0, []⟩ h
    have h2 := classify_fold_all_cached oracle' items ⟨cache, false, 0, []⟩ h
    rw [classify_items, h1]
    refine ⟨rfl, rfl, rfl, by simp, ?_⟩
    rw [classify_items, h2]
  · intro oracle items cache
    exact ⟨classify_fold_cache_extends oracle items ⟨cache, false, 0, []⟩,
      fun id hid =>
        classify_fold_lookup_preserved oracle items ⟨cache, false, 0, []⟩
          id hid⟩

/-- Claim C8 witness: one item, already cached as `"Lager"`; two different
oracles (one would succeed with a different category, one would fail) both
yield the cached category with zero calls and no cache rewrite. -/
theorem c8_cache_witness :
    (∀ it ∈ ([⟨1, "X"⟩] : List Item),
      (dictLookup [⟨1, "X", some "Lager", none⟩] it.item_id).isSome)
    ∧ (classify_items (fun _ => Except.ok "Stout") [⟨1, "X"⟩]
        [⟨1, "X", some "Lager", none⟩]).calls = 0
    ∧ (classify_items (fun _ => Except.ok "Stout") [⟨1, "X"⟩]
        [⟨1, "X", some "Lager", none⟩]).cache
        = [⟨1, "X", some "Lager", none⟩]
    ∧ (classify_items (fun _ => Except.ok "Stout") [⟨1, "X"⟩]
        [⟨1, "X", some "Lager", none⟩]).out
        = (classify_items (fun _ => Except.error "down") [⟨1, "X"⟩]
            [⟨1, "X", some "Lager", none⟩]).out := by
  have h := c8_cache.1 (fun _ => Except.ok "Stout")
    (fun _ => Except.error "down") [⟨1, "X"⟩] [⟨1, "X", some "Lager", none⟩]
    (by decide)
  exact ⟨by decide, h.1, h.2.2.1, h.2.2.2.2⟩

/-! ## Claim C5: value_counts machinery -/

theorem firstSeenAux_eq_of_mem {α : Type} [DecidableEq α] (seen : List α)
    (x : α) (xs : List α) (hx : x ∈ seen) :
    firstSeenAux seen (x :: xs) = firstSeenAux seen xs := by
  simp [firstSeenAux, hx]

theorem firstSeenAux_eq_of_not_mem {α : Type} [DecidableEq α] (seen : List α)
    (x : α) (xs : List α) (hx : x ∉ seen) :
    firstSeenAux seen (x :: xs) = x :: firstSeenAux (x :: seen) xs := by
  simp [firstSeenAux, hx]

theorem mem_firstSeenAux {α : Type} [DecidableEq α] :
    ∀ {l seen : List α} {a : α},
      a ∈ firstSeenAux seen l → a ∉ seen ∧ a ∈ l := by
  intro l
  induction l with
  | nil =>
    intro seen a h
    simp [firstSeenAux] at h
  | cons x xs ih =>
    intro seen a h
    by_cases hx : x ∈ seen
    · rw [firstSeenAux_eq_of_mem seen x xs hx] at h
      obtain ⟨h1, h2⟩ := ih h
      exact ⟨h1, List.mem_cons_of_mem _ h2⟩
    · rw [firstSeenAux_eq_of_not_mem seen x xs hx] at h
      rcases List.mem_cons.mp h with h | h
      · subst h
        exact ⟨hx, List.mem_cons_self _ _⟩
      · obtain ⟨h1, h2⟩ := ih h
        exact ⟨fun hc => h1 (List.mem_cons_of_mem _ hc),
          List.mem_cons_of_mem _ h2⟩

theorem mem_firstSeenAux_of_mem {α : Type} [DecidableEq α] :
    ∀ {l seen : List α} {a : α},
      a ∈ l → a ∉ seen → a ∈ firstSeenAux seen l := by
  intro l
  induction l with
  | nil =>
    intro seen a h
    simp at h
  | cons x xs ih =>
    intro seen a hal hns
    by_cases hx : x ∈ seen
    · rw [firstSeenAux_eq_of_mem seen x xs hx]
      rcases List.mem_cons.mp hal with h | h
      · exact absurd (h ▸ hx) hns
      · exact ih h hns
    · rw [firstSeenAux_eq_of_not_mem seen x xs hx]
      by_cases hax : a = x
      · subst hax
        exact List.mem_cons_self _ _
      · rcases List.mem_cons.mp hal with h | h
        · exact absurd h hax
        · refine List.mem_cons_of_mem _ (ih h ?_)
          intro hc
          rcases List.mem_cons.mp hc with h' | h'
          · exact hax h'
          · exact hns h'

theorem firstSeenAux_nodup {α : Type} [DecidableEq α] :
    ∀ (l seen : List α), (firstSeenAux seen l).Nodup := by
  intro l
  induction l with
  | nil =>
    intro seen
    simp [firstSeenAux]
  | cons x xs ih =>
    intro seen
    by_cases hx : x ∈ seen
    · rw [firstSeenAux_eq_of_mem seen x xs hx]
      exact ih seen
    · rw [firstSeenAux_eq_of_not_mem seen x xs hx]
      refine List.nodup_cons.mpr ⟨?_, ih (x :: seen)⟩
      intro hc
      exact (mem_firstSeenAux hc).1 (List.mem_cons_self _ _)

theorem firstSeenAux_pairwise_indexOf {α : Type} [DecidableEq α] :
    ∀ (l seen : List α),
      (firstSeenAux seen l).Pairwise
        (fun a b => l.indexOf a < l.indexOf b) := by
  intro l
  induction l with
  | nil =>
    intro seen
    simp [firstSeenAux]
  | cons x xs ih =>
    intro seen
    by_cases hx : x ∈ seen
    · rw [firstSeenAux_eq_of_mem seen x xs hx]
      refine List.Pairwise.imp_of_mem ?_ (ih seen)
      intro a b ha hb hab
      have ha' := mem_firstSeenAux ha
      have hb' := mem_firstSeenAux hb
      have hax : (x == a) = false :=
        beq_false_of_ne (fun h => ha'.1 (h ▸ hx))
      have hbx : (x == b) = false :=
        beq_false_of_ne (fun h => hb'.1 (h ▸ hx))
      rw [List.indexOf_cons, List.indexOf_cons, hax, hbx]
      simpa using hab
    · rw [firstSeenAux_eq_of_not_mem seen x xs hx]
      refine List.pairwise_cons.mpr ⟨?_, ?_⟩
      · intro b hb
        have hb' := mem_firstSeenAux hb
        have hbx : (x == b) = false := beq_false_of_ne
          (fun h => hb'.1 (h ▸ List.mem_cons_self x seen))
        rw [List.indexOf_cons, List.indexOf_cons, hbx, beq_self_eq_true]
        simp
      · refine List.Pairwise.imp_of_mem ?_ (ih (x :: seen))
        intro a b ha hb hab
        have ha' := mem_firstSeenAux ha
        have hb' := mem_firstSeenAux hb
        have hax : (x == a) = false := beq_false_of_ne
          (fun h => ha'.1 (h ▸ List.mem_cons_self x seen))
        have hbx : (x == b) = false := beq_false_of_ne
          (fun h => hb'.1 (h ▸ List.mem_cons_self x seen))
        rw [List.indexOf_cons, List.indexOf_cons, hax, hbx]
        simpa using hab

theorem mem_insertDesc {α : Type} {x z : α × Nat} :
    ∀ {l : List (α × Nat)}, z ∈ insertDesc x l ↔ z = x ∨ z ∈ l := by
  intro l
  induction l with
  | nil => simp [insertDesc]
  | cons y ys ih =>
    rw [insertDesc]
    by_cases h : y.2 ≤ x.2
    · rw [if_pos h]
      simp
    · rw [if_neg h]
      rw [List.mem_cons, ih, List.mem_cons]
      tauto

theorem insertDesc_perm {α : Type} (x : α × Nat) :
    ∀ l : List (α × Nat), (insertDesc x l).Perm (x :: l) := by
  intro l
  induction l with
  | nil => simp [insertDesc]
  | cons y ys ih =>
    rw [insertDesc]
    by_cases h : y.2 ≤ x.2
    · rw [if_pos h]
    · rw [if_neg h]
      exact (ih.cons y).trans (List.Perm.swap x y ys)

theorem sortDesc_perm {α : Type} :
    ∀ l : List (α × Nat), (sortDesc l).Perm l := by
  intro l
  induction l with
  | nil => simp [sortDesc]
  | cons x xs ih =>
    have : sortDesc (x :: xs) = insertDesc x (sortDesc xs) := rfl
    rw [this]
    exact (insertDesc_perm x (sortDesc xs)).trans (ih.cons x)

theorem insertDesc_pairwise {α : Type} (R : α × Nat → α × Nat → Prop)
    (x : α × Nat) :
    ∀ l : List (α × Nat),
      l.Pairwise (fun a b => b.2 < a.2 ∨ (a.2 = b.2 ∧ R a b)) →
      (∀ y ∈ l, R x y) →
      (insertDesc x l).Pairwise
        (fun a b => b.2 < a.2 ∨ (a.2 = b.2 ∧ R a b)) := by
  intro l
  induction l with
  | nil =>
    intro _ _
    simp [insertDesc]
  | cons y ys ih =>
    intro hp hr
    rcases List.pairwise_cons.mp hp with ⟨hy, hys⟩
    rw [insertDesc]
    by_cases hyx : y.2 ≤ x.2
    · rw [if_pos hyx]
      refine List.pairwise_cons.mpr ⟨?_, hp⟩
      intro z hz
      rcases List.mem_cons.mp hz with rfl | hz'
      · rcases Nat.lt_or_ge z.2 x.2 with h | h
        · exact Or.inl h
        · exact Or.inr ⟨by omega, hr z (List.mem_cons_self _ _)⟩
      · rcases hy z hz' with h | ⟨h1, _⟩
        · exact Or.inl (by omega)
        · rcases Nat.lt_or_ge z.2 x.2 with h | h
          · exact Or.inl h
          · exact Or.inr ⟨by omega, hr z (List.mem_cons_of_mem _ hz')⟩
    · rw [if_neg hyx]
      refine List.pairwise_cons.mpr
        ⟨?_, ih hys (fun z hz => hr z (List.mem_cons_of_mem _ hz))⟩
      intro z hz
      rcases mem_insertDesc.mp hz with rfl | hz'
      · exact Or.inl (by omega)
      · exact hy z hz'

theorem sortDesc_pairwise {α : Type} (R : α × Nat → α × Nat → Prop) :
    ∀ l : List (α × Nat), l.Pairwise R →
      (sortDesc l).Pairwise
        (fun a b => b.2 < a.2 ∨ (a.2 = b.2 ∧ R a b)) := by
  intro l
  induction l with
  | nil =>
    intro _
    simp [sortDesc]
  | cons x xs ih =>
    intro hp
    rcases List.pairwise_cons.mp hp with ⟨hx, hxs⟩
    have hstep : sortDesc (x :: xs) = insertDesc x (sortDesc xs) := rfl
    rw [hstep]
    refine insertDesc_pairwise R x (sortDesc xs) (ih hxs) ?_
    intro y hy
    exact hx y ((sortDesc_perm xs).mem_iff.mp hy)

theorem value_counts_pairwise {α : Type} [DecidableEq α] (l : List α) :
    (value_counts l).Pairwise (fun a b =>
      b.2 < a.2 ∨ (a.2 = b.2 ∧ l.indexOf a.1 < l.indexOf b.1)) := by
  refine sortDesc_pairwise (fun a b => l.indexOf a.1 < l.indexOf b.1) _ ?_
  refine List.pairwise_map.mpr ?_
  exact firstSeenAux_pairwise_indexOf l []

theorem value_counts_keys_perm {α : Type} [DecidableEq α] (l : List α) :
    ((value_counts l).map Prod.fst).Perm (firstSeen l) := by
  have h := (sortDesc_perm ((firstSeen l).map
    (fun k => (k, l.countP (fun x => x = k))))).map Prod.fst
  rw [List.map_map] at h
  have h2 : (firstSeen l).map
      (Prod.fst ∘ fun k => (k, l.countP (fun x => x = k))) = firstSeen l := by
    simp [Function.comp_def]
  rw [h2] at h
  exact h

theorem value_counts_mem {α : Type} [DecidableEq α] (l : List α)
    {p : α × Nat} (hp : p ∈ value_counts l) :
    p.1 ∈ firstSeen l ∧ p.2 = l.countP (fun x => x = p.1) := by
  have hmem := (sortDesc_perm ((firstSeen l).map
    (fun k => (k, l.countP (fun x => x = k))))).mem_iff.mp hp
  obtain ⟨k, hk, hkp⟩ := List.mem_map.mp hmem
  rw [← hkp]
  exact ⟨hk, rfl⟩

theorem value_counts_snd {α : Type} [DecidableEq α] (l : List α) :
    (value_counts l).map Prod.snd
      = (value_counts l).map (fun p => l.countP (fun x => x = p.1)) := by
  apply List.map_congr_left
  intro p hp
  exact (value_counts_mem l hp).2

/-- Claim C5: `get_top_items` is the top-`n` truncation of the scope's
`item_id` frequency ranking, resolved to names: the ranking is sorted by count
descending with ties broken by the position of the key's first appearance in
the scoped consumption log (earlier first), it lists each consumed item id
exactly once with its exact frequency; and the worked example holds. -/
theorem c5_top_items :
    (∀ (cs : List Consumption) (its : List ClassifiedItem) (n : Nat)
        (uid : Option Nat),
      get_top_items cs its n uid
          = ((value_counts ((scopeOf cs uid).map
              (fun c => c.item_id))).take n).map
                (fun p => (id_to_name its p.1, p.2))
        ∧ (value_counts ((scopeOf cs uid).map
            (fun c => c.item_id))).Pairwise (fun a b =>
              b.2 < a.2 ∨ (a.2 = b.2
                ∧ ((scopeOf cs uid).map (fun c => c.item_id)).indexOf a.1
                  < ((scopeOf cs uid).map (fun c => c.item_id)).indexOf b.1))
        ∧ ((value_counts ((scopeOf cs uid).map
            (fun c => c.item_id))).map Prod.fst).Perm
              (firstSeen ((scopeOf cs uid).map (fun c => c.item_id)))
        ∧ (value_counts ((scopeOf cs uid).map
            (fun c => c.item_id))).map Prod.snd
          = (value_counts ((scopeOf cs uid).map
              (fun c => c.item_id))).map (fun p =>
                ((scopeOf cs uid).map (fun c => c.item_id)).countP
                  (fun x => x = p.1)))
    ∧ get_top_items [⟨7, 1, 100⟩, ⟨7, 1, 200⟩, ⟨7, 2, 300⟩]
        [⟨1, "A", some "Lager"⟩, ⟨2, "B", some "Cider"⟩] 5 (some 7)
      = [("A", 2), ("B", 1)] := by
  refine ⟨fun cs its n uid => ⟨rfl, ?_, ?_, ?_⟩, ?_⟩
  · exact value_counts_pairwise _
  · exact value_counts_keys_perm _
  · exact value_counts_snd _
  · decide

/-! ## Claim C4 -/

theorem weekLabel_dow (t : Nat) : dayOfWeek (weekLabel t) = 0 := by
  unfold weekLabel nextMondayOnOrAfter dayOfWeek
  omega

theorem nat_min?_spec {xs : List Nat} {a : Nat} (h : xs.min? = some a) :
    a ∈ xs ∧ ∀ b ∈ xs, a ≤ b := by
  rw [List.min?_eq_some_iff] at h
  · exact h
  · exact fun a => le_refl a
  · exact fun a b => min_choice a b
  · exact fun a b c => le_min_iff

theorem nat_max?_spec {xs : List Nat} {a : Nat} (h : xs.max? = some a) :
    a ∈ xs ∧ ∀ b ∈ xs, b ≤ a := by
  rw [List.max?_eq_some_iff] at h
  · exact h
  · exact fun a => le_refl a
  · exact fun a b => max_choice a b
  · exact fun a b c => max_le_iff

theorem nat_min?_isSome {xs : List Nat} (h : xs ≠ []) : xs.min?.isSome := by
  cases xs with
  | nil => exact absurd rfl h
  | cons x xs => simp [List.min?]

theorem nat_max?_isSome {xs : List Nat} (h : xs ≠ []) : xs.max?.isSome := by
  cases xs with
  | nil => exact absurd rfl h
  | cons x xs => simp [List.max?]

theorem monday_between {lo hi x : Nat} (h1 : dayOfWeek lo = 0)
    (h2 : dayOfWeek x = 0) (hlo : lo ≤ x) (hhi : x ≤ hi) :
    ∃ i, i < (hi - lo) / 7 + 1 ∧ x = lo + 7 * i := by
  refine ⟨(x - lo) / 7, ?_, ?_⟩
  · unfold dayOfWeek at h1 h2
    omega
  · unfold dayOfWeek at h1 h2
    omega

theorem get_weekly_consumptions_eq (cs : List Consumption) (uid : Option Nat)
    {lo hi : Nat}
    (hmin : (((scopeOf cs uid).map (fun c => weekLabel c.time))).min?
      = some lo)
    (hmax : (((scopeOf cs uid).map (fun c => weekLabel c.time))).max?
      = some hi) :
    get_weekly_consumptions cs uid
      = (List.range ((hi - lo) / 7 + 1)).map (fun i =>
          (lo + 7 * i, ((scopeOf cs uid).map
            (fun c => weekLabel c.time)).countP
              (fun x => x = lo + 7 * i))) := by
  dsimp only [get_weekly_consumptions]
  rw [hmin, hmax]

/-- Claim C4: over a non-empty scope the weekly binner's output is non-empty,
chronologically ordered with consecutive week labels exactly 7 days apart
(every week between the first and last observed label present exactly once,
zero-filled), and its counts sum to the scope's row count — for a user scope,
to `get_user_consumption_count`; an empty scope yields `[]`. -/
theorem c4_weekly_invariants (cs : List Consumption) (uid : Option Nat) :
    (scopeOf cs uid = [] → get_weekly_consumptions cs uid = [])
    ∧ (scopeOf cs uid ≠ [] →
        get_weekly_consumptions cs uid ≠ []
        ∧ (get_weekly_consumptions cs uid).Chain' (fun a b => b.1 = a.1 + 7)
        ∧ ((get_weekly_consumptions cs uid).map Prod.fst).Pairwise (· < ·)
        ∧ ((get_weekly_consumptions cs uid).map Prod.snd).sum
            = (scopeOf cs uid).length)
    ∧ (∀ u : Nat, uid = some u →
        ((get_weekly_consumptions cs uid).map Prod.snd).sum
          = get_user_consumption_count u cs) := by
  by_cases hs : scopeOf cs uid = []
  · have hout : get_weekly_consumptions cs uid = [] := by
      dsimp only [get_weekly_consumptions]
      rw [hs]
      rfl
    refine ⟨fun _ => hout, fun hne => absurd hs hne, ?_⟩
    intro u hu
    subst hu
    rw [hout]
    have hc : get_user_consumption_count u cs = 0 := by
      have h0 : scopeOf cs (some u) = cs.filter (fun c => c.user_id = u) := rfl
      unfold get_user_consumption_count
      rw [← h0, hs]
      rfl
    simp [hc]
  · have hlne : ((scopeOf cs uid).map (fun c => weekLabel c.time)) ≠ [] := by
      simp [hs]
    obtain ⟨lo, hmin⟩ := Option.isSome_iff_exists.mp (nat_min?_isSome hlne)
    obtain ⟨hi, hmax⟩ := Option.isSome_iff_exists.mp (nat_max?_isSome hlne)
    have hout := get_weekly_consumptions_eq cs uid hmin hmax
    have hminspec := nat_min?_spec hmin
    have hmaxspec := nat_max?_spec hmax
    have hdlo : dayOfWeek lo = 0 := by
      obtain ⟨c, _, hc⟩ := List.mem_map.mp hminspec.1
      rw [← hc]
      exact weekLabel_dow _
    have hmem : ∀ x ∈ (scopeOf cs uid).map (fun c => weekLabel c.time),
        x ∈ (List.range ((hi - lo) / 7 + 1)).map (fun i => lo + 7 * i) := by
      intro x hx
      have hdx : dayOfWeek x = 0 := by
        obtain ⟨c, _, hc⟩ := List.mem_map.mp hx
        rw [← hc]
        exact weekLabel_dow _
      obtain ⟨i, hi1, hi2⟩ :=
        monday_between hdlo hdx (hminspec.2 x hx) (hmaxspec.2 x hx)
      exact List.mem_map.mpr ⟨i, List.mem_range.mpr hi1, hi2.symm⟩
    have hkeys_nodup : ((List.range ((hi - lo) / 7 + 1)).map
        (fun i => lo + 7 * i)).Nodup := by
      refine List.pairwise_map.mpr
        ((List.pairwise_lt_range ((hi - lo) / 7 + 1)).imp ?_)
      intro a b hab
      omega
    have hsum : ((get_weekly_consumptions cs uid).map Prod.snd).sum
        = (scopeOf cs uid).length := by
      rw [hout, List.map_map]
      have hmm : (List.range ((hi - lo) / 7 + 1)).map (Prod.snd ∘ fun i =>
            (lo + 7 * i, ((scopeOf cs uid).map
              (fun c => weekLabel c.time)).countP (fun x => x = lo + 7 * i)))
          = ((List.range ((hi - lo) / 7 + 1)).map (fun i => lo + 7 * i)).map
              (fun k => ((scopeOf cs uid).map
                (fun c => weekLabel c.time)).countP (fun x => x = k)) := by
        rw [List.map_map]
        rfl
      rw [hmm]
      have h2 := sum_countP_eq_length (fun x => x)
        ((scopeOf cs uid).map (fun c => weekLabel c.time))
        ((List.range ((hi - lo) / 7 + 1)).map (fun i => lo + 7 * i))
        hkeys_nodup hmem
      rw [List.length_map] at h2
      exact h2
    refine ⟨fun hcon => absurd hcon hs, fun _ => ⟨?_, ?_, ?_, hsum⟩, ?_⟩
    · rw [hout]
      intro hc
      have hlen := congrArg List.length hc
      simp at hlen
    · rw [hout, List.chain'_map]
      refine (List.chain'_range_succ _ _).mpr ?_
      intro m hm
      dsimp only
      omega
    · rw [hout, List.map_map]
      refine List.pairwise_map.mpr
        ((List.pairwise_lt_range _).imp ?_)
      intro a b hab
      simp only [Function.comp_apply]
      omega
    · intro u hu
      subst hu
      rw [hsum]
      rfl

/-- Claim C4 witness: the two-consumption example input is a non-empty scope
on which all the invariants hold concretely. -/
theorem c4_weekly_invariants_witness :
    scopeOf [⟨7, 1, 1704240000⟩, ⟨7, 2, 1705449600⟩] (some 7) ≠ []
    ∧ get_weekly_consumptions [⟨7, 1, 1704240000⟩, ⟨7, 2, 1705449600⟩]
        (some 7) ≠ []
    ∧ (get_weekly_consumptions [⟨7, 1, 1704240000⟩, ⟨7, 2, 1705449600⟩]
        (some 7)).Chain' (fun a b => b.1 = a.1 + 7)
    ∧ ((get_weekly_consumptions [⟨7, 1, 1704240000⟩, ⟨7, 2, 1705449600⟩]
        (some 7)).map Prod.snd).sum
        = (scopeOf [⟨7, 1, 1704240000⟩, ⟨7, 2, 1705449600⟩] (some 7)).length
    ∧ ((get_weekly_consumptions [⟨7, 1, 1704240000⟩, ⟨7, 2, 1705449600⟩]
        (some 7)).map Prod.snd).sum
        = get_user_consumption_count 7
            [⟨7, 1, 1704240000⟩, ⟨7, 2, 1705449600⟩] := by
  have h := c4_weekly_invariants
    [⟨7, 1, 1704240000⟩, ⟨7, 2, 1705449600⟩] (some 7)
  have hne : scopeOf [⟨7, 1, 1704240000⟩, ⟨7, 2, 1705449600⟩] (some 7)
      ≠ [] := by decide
  obtain ⟨-, h2, h3⟩ := h
  obtain ⟨o1, o2, -, o4⟩ := h2 hne
  exact ⟨hne, o1, o2, o4, h3 7 rfl⟩

/-! ## Claim C6 -/

theorem filterMap_eq_map_of_some {α β : Type} (p : α → Option β) (q : α → β) :
    ∀ l : List α, (∀ a ∈ l, p a = some (q a)) → l.filterMap p = l.map q := by
  intro l
  induction l with
  | nil => intro _; rfl
  | cons x xs ih =>
    intro h
    rw [List.filterMap_cons, h x (List.mem_cons_self x xs), List.map_cons,
      ih (fun a ha => h a (List.mem_cons_of_mem x ha))]

theorem length_filterMap_of_isSome {α β : Type} (p : α → Option β) :
    ∀ l : List α, (∀ a ∈ l, (p a).isSome) →
      (l.filterMap p).length = l.length := by
  intro l
  induction l with
  | nil => intro _; rfl
  | cons x xs ih =>
    intro h
    obtain ⟨b, hb⟩ := Option.isSome_iff_exists.mp
      (h x (List.mem_cons_self x xs))
    rw [List.filterMap_cons, hb, List.length_cons,
      ih (fun a ha => h a (List.mem_cons_of_mem x ha))]
    rfl

theorem categoryOf_map_range (f : Nat → ClassifiedItem)
    (hid : ∀ j, (f j).item_id = j) :
    ∀ (n : Nat) (c : Consumption), c.item_id < n →
      categoryOf ((List.range n).map f) c = (f c.item_id).category := by
  intro n
  induction n with
  | zero =>
    intro c hc
    omega
  | succ n ih =>
    intro c hc
    unfold categoryOf
    rw [List.range_succ, List.map_append, List.foldl_append]
    by_cases h : c.item_id = n
    · have hfid : (f n).item_id = c.item_id := by rw [hid n, h]
      simp only [List.map_cons, List.map_nil, List.foldl_cons,
        List.foldl_nil, if_pos hfid]
      simp [h]
    · have hne : ¬((f n).item_id = c.item_id) := by
        rw [hid n]
        exact fun hx => h hx.symm
      simp only [List.map_cons, List.map_nil, List.foldl_cons,
        List.foldl_nil, if_neg hne]
      have hrec := ih c (by omega)
      unfold categoryOf at hrec
      exact hrec

theorem c6_cats_eq :
    c6_cs.filterMap (categoryOf c6_items)
      = (List.range 1001).map (fun i => String.mk (List.replicate i 'a')) := by
  unfold c6_cs
  rw [List.filterMap_map]
  refine filterMap_eq_map_of_some _ _ _ ?_
  intro i hi
  have h := categoryOf_map_range
    (fun i => (⟨i, "x", some (String.mk (List.replicate i 'a'))⟩ :
      ClassifiedItem)) (fun j => rfl) 1001 ⟨7, i, 0⟩
    (by simpa using List.mem_range.mp hi)
  simpa [c6_items] using h

theorem c6_cats_nodup :
    ((List.range 1001).map
      (fun i => String.mk (List.replicate i 'a'))).Nodup := by
  refine List.Nodup.map ?_ (List.nodup_range 1001)
  intro a b hab
  have hdata : List.replicate a 'a' = List.replicate b 'a' := by
    injection hab
  have hlen := congrArg List.length hdata
  simpa using hlen

theorem firstSeenAux_of_nodup {α : Type} [DecidableEq α] :
    ∀ (l seen : List α), l.Nodup → (∀ a ∈ l, a ∉ seen) →
      firstSeenAux seen l = l := by
  intro l
  induction l with
  | nil => intro seen _ _; rfl
  | cons x xs ih =>
    intro seen hnd hdisj
    rcases List.nodup_cons.mp hnd with ⟨hx, hxs⟩
    rw [firstSeenAux_eq_of_not_mem seen x xs
      (hdisj x (List.mem_cons_self x xs))]
    rw [ih (x :: seen) hxs]
    intro a ha
    intro hc
    rcases List.mem_cons.mp hc with h | h
    · exact hx (h ▸ ha)
    · exact hdisj a (List.mem_cons_of_mem x ha) h

theorem value_counts_length {α : Type} [DecidableEq α] (l : List α) :
    (value_counts l).length = (firstSeen l).length := by
  have h := (sortDesc_perm ((firstSeen l).map
    (fun k => (k, l.countP (fun x => x = k))))).length_eq
  rw [value_counts, h, List.length_map]

theorem sortDesc_of_const {α : Type} (c : Nat) :
    ∀ l : List (α × Nat), (∀ p ∈ l, p.2 = c) → sortDesc l = l := by
  intro l
  induction l with
  | nil => intro _; rfl
  | cons x xs ih =>
    intro h
    have hstep : sortDesc (x :: xs) = insertDesc x (sortDesc xs) := rfl
    rw [hstep, ih (fun p hp => h p (List.mem_cons_of_mem x hp))]
    cases xs with
    | nil => rfl
    | cons y ys =>
      have h1 : x.2 = c := h x (List.mem_cons_self _ _)
      have h2 : y.2 = c :=
        h y (List.mem_cons_of_mem _ (List.mem_cons_self _ _))
      rw [insertDesc, if_pos (by omega)]

theorem countP_eq_one_of_nodup_mem2 {α : Type} [DecidableEq α]
    {l : List α} {x : α} (h : l.Nodup) (hm : x ∈ l) :
    l.countP (fun y => y = x) = 1 := by
  induction l with
  | nil => simp at hm
  | cons k ks ih =>
    rw [List.countP_cons]
    rcases List.nodup_cons.mp h with ⟨hk, hks⟩
    by_cases hx : k = x
    · subst hx
      have h0 : ks.countP (fun y => y = k) = 0 := by
        rw [List.countP_eq_zero]
        intro a ha
        simp only [decide_eq_true_eq]
        intro hxa
        exact hk (hxa ▸ ha)
      simp [h0]
    · have hmem : x ∈ ks := by
        rcases List.mem_cons.mp hm with h' | h'
        · exact absurd h'.symm hx
        · exact h'
      simp [ih hks hmem, hx]

theorem c6_value_counts_eq :
    value_counts (c6_cs.filterMap (categoryOf c6_items))
      = ((List.range 1001).map (fun i => String.mk (List.replicate i 'a'))).map
          (fun k => (k, 1)) := by
  rw [value_counts, show firstSeen (c6_cs.filterMap (categoryOf c6_items))
      = (List.range 1001).map (fun i => String.mk (List.replicate i 'a'))
    from by
      rw [c6_cats_eq]
      exact firstSeenAux_of_nodup _ [] c6_cats_nodup (by simp)]
  have hmc : ((List.range 1001).map
        (fun i => String.mk (List.replicate i 'a'))).map
          (fun k => (k, (c6_cs.filterMap (categoryOf c6_items)).countP
            (fun x => x = k)))
      = ((List.range 1001).map
          (fun i => String.mk (List.replicate i 'a'))).map
            (fun k => (k, 1)) := by
    refine List.map_congr_left ?_
    intro k hk
    rw [countP_eq_one_of_nodup_mem2 (by rw [c6_cats_eq]; exact c6_cats_nodup)
      (by rw [c6_cats_eq]; exact hk)]
  rw [hmc]
  refine sortDesc_of_const 1 _ ?_
  intro p hp
  obtain ⟨k, _, hk⟩ := List.mem_map.mp hp
  rw [← hk]

theorem c6_out_keys :
    (get_user_top_categories 7 c6_cs c6_items 1000).map Prod.fst
      = (List.range 1000).map (fun i => String.mk (List.replicate i 'a')) := by
  have hfilter : c6_cs.filter (fun c => c.user_id = 7) = c6_cs := by
    refine List.filter_eq_self.mpr ?_
    intro a ha
    obtain ⟨i, _, hi⟩ := List.mem_map.mp ha
    rw [← hi]
    simp
  dsimp only [get_user_top_categories]
  rw [hfilter, c6_value_counts_eq, ← List.map_take, ← List.map_take,
    List.take_range, List.map_map]
  have hmin : (1000 : Nat) ⊓ 1001 = 1000 := by norm_num
  rw [hmin]
  simp [Function.comp_def]

/-- Claim C6 counterexample: a user who touched 1001 distinct categories does
not get a full category breakdown: the category of item 1000 (the string of
1000 `a`s) is touched but missing from the recap's category list, which is
silently truncated to the top 1000. -/
theorem c6_counterexample :
    String.mk (List.replicate 1000 'a')
        ∈ c6_cs.filterMap (categoryOf c6_items)
    ∧ String.mk (List.replicate 1000 'a')
        ∉ (get_user_top_categories 7 c6_cs c6_items 1000).map Prod.fst := by
  constructor
  · rw [c6_cats_eq]
    exact List.mem_map.mpr ⟨1000, by simp, rfl⟩
  · rw [c6_out_keys]
    intro hmem
    obtain ⟨i, hi, heq⟩ := List.mem_map.mp hmem
    have hdata : List.replicate i 'a' = List.replicate 1000 'a' := by
      injection heq
    have hlen := congrArg List.length hdata
    simp at hlen
    rw [List.mem_range] at hi
    omega

/-- Claim C6 (amended): every consumption in scope whose item id resolves in
the merged catalog is mapped to that item's category (the catalog merger has
already replaced missing classifications by the sentinel `"uncategorised"`;
a consumption whose item is absent from the catalog is dropped, not counted);
the per-user category list is the top-1000 truncation of the category
frequency table — hence it contains every category the user touched, with its
exact count, sorted by count descending, whenever the user touched at most
1000 distinct categories. -/
theorem c6_amended (uid : Nat) (cs : List Consumption)
    (items : List ClassifiedItem)
    (hlen : (firstSeen ((cs.filter (fun c => c.user_id = uid)).filterMap
      (categoryOf items))).length ≤ 1000)
    (hall : ∀ c ∈ cs.filter (fun c => c.user_id = uid),
      (categoryOf items c).isSome) :
    ((get_user_top_categories uid cs items 1000).map Prod.fst).Perm
        (firstSeen ((cs.filter (fun c => c.user_id = uid)).filterMap
          (categoryOf items)))
    ∧ (get_user_top_categories uid cs items 1000).map Prod.snd
        = (get_user_top_categories uid cs items 1000).map (fun p =>
            ((cs.filter (fun c => c.user_id = uid)).filterMap
              (categoryOf items)).countP (fun x => x = p.1))
    ∧ (get_user_top_categories uid cs items 1000).Pairwise
        (fun a b => b.2 ≤ a.2)
    ∧ ((cs.filter (fun c => c.user_id = uid)).filterMap
        (categoryOf items)).length
        = (cs.filter (fun c => c.user_id = uid)).length := by
  have htake : get_user_top_categories uid cs items 1000
      = value_counts ((cs.filter (fun c => c.user_id = uid)).filterMap
          (categoryOf items)) := by
    dsimp only [get_user_top_categories]
    refine List.take_of_length_le ?_
    rw [value_counts_length]
    exact hlen
  refine ⟨?_, ?_, ?_, ?_⟩
  · rw [htake]
    exact value_counts_keys_perm _
  · rw [htake]
    exact value_counts_snd _
  · rw [htake]
    refine (value_counts_pairwise _).imp ?_
    intro a b hab
    rcases hab with h | ⟨h, _⟩
    · omega
    · omega
  · exact length_filterMap_of_isSome _ _ hall

/-- Claim C6 witness: a single-consumption scope meets both hypotheses, and
the amended conclusions hold on it. -/
theorem c6_amended_witness :
    (firstSeen ((([⟨7, 1, 0⟩] : List Consumption).filter
      (fun c => c.user_id = 7)).filterMap
        (categoryOf [⟨1, "A", some "Lager"⟩]))).length ≤ 1000
    ∧ (∀ c ∈ ([⟨7, 1, 0⟩] : List Consumption).filter
        (fun c => c.user_id = 7),
      (categoryOf [⟨1, "A", some "Lager"⟩] c).isSome)
    ∧ ((get_user_top_categories 7 [⟨7, 1, 0⟩]
        [⟨1, "A", some "Lager"⟩] 1000).map Prod.fst).Perm
          (firstSeen ((([⟨7, 1, 0⟩] : List Consumption).filter
            (fun c => c.user_id = 7)).filterMap
              (categoryOf [⟨1, "A", some "Lager"⟩])))
    ∧ (get_user_top_categories 7 [⟨7, 1, 0⟩]
        [⟨1, "A", some "Lager"⟩] 1000).Pairwise (fun a b => b.2 ≤ a.2) := by
  have h := c6_amended 7 [⟨7, 1, 0⟩] [⟨1, "A", some "Lager"⟩]
    (by decide) (by decide)
  exact ⟨by decide, by decide, h.1, h.2.2.1⟩
